import Mathlib

/-!
Verification development for the statistical analysis tool
(`anova_tool.py`).  The script delegates its numerics to pandas, scipy
and statsmodels, so the shallow embedding below models the library
calls the script actually makes:

* `pd.crosstab` and `scipy.stats.chi2_contingency` for the chi-square
  branch (including scipy's default Yates continuity correction on
  2x2 tables and its zero-expected-frequency check);
* `statsmodels` `ols(...).fit()` (default `method='pinv'`, i.e. the
  Moore-Penrose pseudoinverse, which never rejects a singular design)
  and Type-II sums of squares for the ANOVA branch;
* the row-wise `mean`/`sum`/`8 - x`/`combine_first` data-cleaning
  operations (pandas `skipna` semantics);
* the `nunique() <= 2` relabeling guard and `Series.replace`.

Numeric cells are rationals (`ℚ`, exact stand-in for float arithmetic
on the small inputs considered); a missing value (NaN) is `none`.
-/

namespace AnovaTool

/-! ### Vectors and matrices as rational lists (row-major) -/

def dot (xs ys : List ℚ) : ℚ := (List.zipWith (· * ·) xs ys).sum

def vadd (xs ys : List ℚ) : List ℚ := List.zipWith (· + ·) xs ys

def vsub (xs ys : List ℚ) : List ℚ := List.zipWith (· - ·) xs ys

def smul (c : ℚ) (xs : List ℚ) : List ℚ := xs.map (fun x => c * x)

def matVec (M : List (List ℚ)) (v : List ℚ) : List ℚ := M.map (fun r => dot r v)

/-- Column `j` of a row-major matrix (out-of-range entries read as 0;
only used on rectangular matrices). -/
def getColumn (j : Nat) (M : List (List ℚ)) : List ℚ := M.map (fun r => r.getD j 0)

/-- Columns of a rectangular row-major matrix. -/
def columnsOf (M : List (List ℚ)) : List (List ℚ) :=
  match M with
  | [] => []
  | r :: _ => (List.range r.length).map (fun j => getColumn j M)

def sumSq (xs : List ℚ) : ℚ := (xs.map (fun x => x * x)).sum

/-! ### Chi-square branch: `scipy.stats.chi2_contingency`

The script builds `pd.crosstab(df[row], df[col])` and passes it to
`chi2_contingency` with default arguments (`correction=True`,
`lambda_=None`, i.e. the Pearson statistic).  scipy computes the
expected frequencies from the marginals, raises a `ValueError` if any
expected frequency is zero (which happens exactly when a row or
column marginal is zero while the grand total is positive), computes
`dof = size - sum(shape) + ndim - 1`, applies Yates' continuity
correction when `dof == 1`, and sums `(observed-expected)^2/expected`.
The p-value (a chi-square tail probability) is irrelevant to the
claims and is not modelled. -/

def rowTotals (t : List (List ℚ)) : List ℚ := t.map List.sum

def colTotals (t : List (List ℚ)) : List ℚ := (columnsOf t).map List.sum

def grandTotal (t : List (List ℚ)) : ℚ := (t.map List.sum).sum

/-- `scipy.stats.contingency.expected_freq`: cell (i,j) is
`row_total_i * col_total_j / grand_total`. -/
def expectedFreq (t : List (List ℚ)) : List (List ℚ) :=
  (rowTotals t).map (fun ri => (colTotals t).map (fun cj => ri * cj / grandTotal t))

/-- The failure kind the spec calls `DegenerateTableError`; in the code
it is the `ValueError` scipy raises when the internally computed table
of expected frequencies has a zero element. -/
inductive ChiError where
  | degenerateTable
  deriving DecidableEq

structure ChiSquareResult where
  statistic : ℚ
  dof : Nat
  deriving DecidableEq

/-- Yates' continuity correction as scipy applies it when `dof == 1`:
move each observed count toward its expected value by
`min(0.5, |expected - observed|)`. -/
def yatesAdjust (o e : ℚ) : ℚ :=
  if o < e then o + min (1/2) (e - o)
  else if e < o then o - min (1/2) (o - e)
  else o

/-- Pearson statistic `Σ (observed - expected)^2 / expected`. -/
def pearsonStat (obs ex : List (List ℚ)) : ℚ :=
  (List.zipWith (fun ro re => (List.zipWith (fun o e => (o - e) * (o - e) / e) ro re).sum)
    obs ex).sum

/-- `scipy.stats.chi2_contingency` on a table of counts, default
arguments.  The zero-expected-frequency check happens before the
statistic is computed; the degrees of freedom follow scipy's
`size - sum(shape) + ndim - 1` with `ndim = 2`. -/
def chi2Contingency (t : List (List ℚ)) : Except ChiError ChiSquareResult :=
  let ex := expectedFreq t
  if ex.any (fun r => r.any (fun x => decide (x = 0))) then
    Except.error ChiError.degenerateTable
  else
    let nr := t.length
    let nc := (t.headD []).length
    let dof := nr * nc + 1 - nr - nc
    let obs := if dof = 1 then List.zipWith (fun ro re => List.zipWith yatesAdjust ro re) t ex
               else t
    Except.ok ⟨pearsonStat obs ex, dof⟩

instance {ε α : Type} [DecidableEq ε] [DecidableEq α] : DecidableEq (Except ε α) :=
  fun x y =>
    match x, y with
    | Except.ok a, Except.ok b =>
        if h : a = b then Decidable.isTrue (by rw [h])
        else Decidable.isFalse (fun hc => h (Except.ok.inj hc))
    | Except.error a, Except.error b =>
        if h : a = b then Decidable.isTrue (by rw [h])
        else Decidable.isFalse (fun hc => h (Except.error.inj hc))
    | Except.ok _, Except.error _ => Decidable.isFalse (fun hc => Except.noConfusion hc)
    | Except.error _, Except.ok _ => Decidable.isFalse (fun hc => Except.noConfusion hc)

/-- A table of counts is rectangular: every row has the width of the
first row (always true of a `pd.crosstab` result). -/
def Rect (t : List (List ℚ)) : Prop := ∀ r ∈ t, r.length = (t.headD []).length

/-- Claim C1 (counterexample): on the 2x2 table `[[10,0],[0,10]]` the
chi-square branch does not return statistic 20.0 with df 1 — scipy's
default continuity correction changes the statistic. -/
theorem chi2_scenarioC_not_twenty :
    chi2Contingency [[10,0],[0,10]] ≠ Except.ok ⟨20, 1⟩ := by
  simp only [chi2Contingency, expectedFreq, rowTotals, colTotals, grandTotal, columnsOf,
    getColumn, pearsonStat, yatesAdjust, List.map, List.sum_cons, List.sum_nil, List.range_succ,
    List.range_zero, List.zipWith, List.headD, List.length, List.any, min_def, List.getD]
  norm_num

/-- Claim C1 (amended): on the 2x2 table `[[10,0],[0,10]]` the
chi-square test succeeds (expected value 5 in every cell, so no
degenerate-table failure) with df 1, but the returned statistic is
16.2 = 81/5: scipy's `chi2_contingency` applies Yates' continuity
correction by default to 2x2 tables.  The uncorrected Pearson sum
`Σ(observed-expected)²/expected` over the same table is exactly 20. -/
theorem chi2_scenarioC_yates :
    chi2Contingency [[10,0],[0,10]] = Except.ok ⟨81/5, 1⟩ ∧
    pearsonStat [[10,0],[0,10]] (expectedFreq [[10,0],[0,10]]) = 20 ∧
    expectedFreq [[10,0],[0,10]] = [[5,5],[5,5]] := by
  refine ⟨?_, ?_, ?_⟩ <;>
  · simp only [chi2Contingency, expectedFreq, rowTotals, colTotals, grandTotal, columnsOf,
      getColumn, pearsonStat, yatesAdjust, List.map, List.sum_cons, List.sum_nil, List.range_succ,
      List.range_zero, List.zipWith, List.headD, List.length, List.any, min_def, List.getD]
    norm_num

/-- Claim C6: on any (rectangular, nonempty-count) contingency table
with a zero row total or a zero column total, the chi-square engine
fails with the degenerate-table error: scipy detects the zero expected
frequency and raises before the statistic is ever computed, so no NaN
statistic can be returned.  (`pd.crosstab` always produces such a
rectangular table; its grand total is positive whenever at least one
jointly observed row exists.) -/
theorem chi2_zero_marginal_degenerate (t : List (List ℚ)) (hrect : Rect t)
    (hpos : 0 < grandTotal t) (hz : (0:ℚ) ∈ rowTotals t ∨ (0:ℚ) ∈ colTotals t) :
    chi2Contingency t = Except.error ChiError.degenerateTable := by
  have hne : t ≠ [] := by
    intro h
    rw [h] at hpos
    simp [grandTotal] at hpos
  have hrow : ∃ r ∈ t, r.sum ≠ 0 := by
    by_contra h
    push_neg at h
    have hg : grandTotal t = 0 := by
      apply List.sum_eq_zero
      intro x hx
      obtain ⟨r, hr, rfl⟩ := List.mem_map.mp hx
      exact h r hr
    rw [hg] at hpos
    exact lt_irrefl 0 hpos
  obtain ⟨r0, hr0mem, hr0⟩ := hrow
  have hr0ne : r0 ≠ [] := by
    intro h
    rw [h] at hr0
    exact hr0 List.sum_nil
  have hw : 0 < (t.headD []).length := by
    rw [← hrect r0 hr0mem]
    exact List.length_pos.mpr hr0ne
  have hcols : colTotals t ≠ [] := by
    have : (colTotals t).length ≠ 0 := by
      unfold colTotals columnsOf
      cases t with
      | nil => exact absurd rfl hne
      | cons rh tt =>
        simp only [List.length_map, List.length_range]
        simp only [List.headD] at hw
        omega
    exact fun hnil => this (by rw [hnil]; rfl)
  have hany : (expectedFreq t).any (fun r => r.any (fun x => decide (x = 0))) = true := by
    rw [List.any_eq_true]
    rcases hz with h0 | h0
    · refine ⟨(colTotals t).map (fun cj => 0 * cj / grandTotal t),
        List.mem_map.mpr ⟨0, h0, rfl⟩, ?_⟩
      rw [List.any_eq_true]
      obtain ⟨c0, hc0⟩ := List.exists_mem_of_ne_nil (colTotals t) hcols
      exact ⟨0 * c0 / grandTotal t, List.mem_map.mpr ⟨c0, hc0, rfl⟩, by simp⟩
    · have hrt : rowTotals t ≠ [] := by
        unfold rowTotals
        intro hnil
        exact hne (List.map_eq_nil_iff.mp hnil)
      obtain ⟨r1, hr1⟩ := List.exists_mem_of_ne_nil (rowTotals t) hrt
      refine ⟨(colTotals t).map (fun cj => r1 * cj / grandTotal t),
        List.mem_map.mpr ⟨r1, hr1, rfl⟩, ?_⟩
      rw [List.any_eq_true]
      exact ⟨r1 * 0 / grandTotal t, List.mem_map.mpr ⟨0, h0, rfl⟩, by simp⟩
  simp [chi2Contingency, hany]

/-- Witness for `chi2_zero_marginal_degenerate`: the table
`[[0,0],[1,1]]` has a zero row total and indeed fails. -/
theorem chi2_zero_marginal_degenerate_witness :
    chi2Contingency [[0,0],[1,1]] = Except.error ChiError.degenerateTable :=
  chi2_zero_marginal_degenerate [[0,0],[1,1]]
    (by
      intro r hr
      simp only [List.mem_cons, List.not_mem_nil, or_false] at hr
      rcases hr with rfl | rfl <;> rfl)
    (by norm_num [grandTotal])
    (Or.inl (by norm_num [rowTotals]))

/-! ### Categorical values and `pd.crosstab`

A cell of an uploaded column is either a number or a string; a missing
value (NaN) is `none`.  `pd.crosstab(df[row], df[col])` drops every
row in which either key is missing, and cross-tabulates the remaining
pairs over the observed level sets.  (pandas sorts the level sets;
the eventual ordering is irrelevant to the claims proved here, so the
embedding keeps first-observation order via `dedup`.) -/

inductive Val where
  | num (q : ℚ)
  | str (s : String)
  deriving DecidableEq

/-- The jointly observed (row-level, col-level) pairs: rows with a
missing value in either variable are dropped. -/
def pairedObs (r c : List (Option Val)) : List (Val × Val) :=
  (List.zip r c).filterMap (fun p =>
    match p with
    | (some a, some b) => some (a, b)
    | _ => none)

def ctRowLevels (r c : List (Option Val)) : List Val :=
  ((pairedObs r c).map Prod.fst).dedup

def ctColLevels (r c : List (Option Val)) : List Val :=
  ((pairedObs r c).map Prod.snd).dedup

/-- Count in cell (a, b) of the contingency table. -/
def ctCount (r c : List (Option Val)) (a b : Val) : Nat :=
  (pairedObs r c).count (a, b)

/-- The contingency table as a matrix of counts (rows indexed by the
observed levels of the row variable, columns by those of the column
variable). -/
def crosstab (r c : List (Option Val)) : List (List Nat) :=
  (ctRowLevels r c).map (fun a => (ctColLevels r c).map (fun b => ctCount r c a b))

/-- Grand total of the contingency table. -/
def ctGrand (r c : List (Option Val)) : Nat := ((crosstab r c).map List.sum).sum

lemma sum_map_ite_count {α : Type} [DecidableEq α] (x : α) (us : List α) :
    (us.map (fun a => if x = a then 1 else 0)).sum = us.count x := by
  induction us with
  | nil => rfl
  | cons u us ih =>
    simp only [List.map_cons, List.sum_cons, List.count_cons, ih, beq_iff_eq]
    rcases eq_or_ne x u with rfl | hne
    · simp [Nat.add_comm]
    · simp [hne, Ne.symm hne]

lemma sum_countP_fst {α β : Type} [DecidableEq α] (l : List (α × β)) (us : List α)
    (hnd : us.Nodup) (hcov : ∀ p ∈ l, p.1 ∈ us) :
    (us.map (fun a => l.countP (fun p => decide (p.1 = a)))).sum = l.length := by
  induction l with
  | nil => simp
  | cons p l ih =>
    have hcov' : ∀ q ∈ l, q.1 ∈ us := fun q hq => hcov q (List.mem_cons_of_mem _ hq)
    have hmem : p.1 ∈ us := hcov p (List.mem_cons_self _ _)
    simp only [List.countP_cons, decide_eq_true_eq, List.length_cons]
    rw [List.sum_map_add]
    have h2 : (us.map (fun a => if p.1 = a then 1 else 0)).sum = 1 := by
      rw [sum_map_ite_count, List.count_eq_one_of_mem hnd hmem]
    rw [ih hcov', h2]

lemma sum_count_pair {α β : Type} [DecidableEq α] [DecidableEq β] (l : List (α × β)) (a : α)
    (vs : List β) (hnd : vs.Nodup) (hcov : ∀ p ∈ l, p.1 = a → p.2 ∈ vs) :
    (vs.map (fun b => l.count (a, b))).sum = l.countP (fun p => decide (p.1 = a)) := by
  induction l with
  | nil => simp
  | cons p l ih =>
    have hcov' : ∀ q ∈ l, q.1 = a → q.2 ∈ vs :=
      fun q hq => hcov q (List.mem_cons_of_mem _ hq)
    simp only [List.count_cons, List.countP_cons, decide_eq_true_eq]
    rw [List.sum_map_add, ih hcov']
    rcases p with ⟨p1, p2⟩
    by_cases hp : p1 = a
    · subst hp
      have hmem : p2 ∈ vs := hcov (p1, p2) (List.mem_cons_self _ _) rfl
      have heq : ∀ b ∈ vs,
          (if ((p1, p2) == (p1, b)) = true then (1:ℕ) else 0) = if p2 = b then 1 else 0 := by
        intro b _
        by_cases hb : p2 = b
        · simp [hb]
        · simp [beq_iff_eq, Prod.mk.injEq, hb]
      rw [List.map_congr_left heq, sum_map_ite_count, List.count_eq_one_of_mem hnd hmem]
      simp
    · have heq : ∀ b ∈ vs, (if ((p1, p2) == (a, b)) = true then (1:ℕ) else 0) = 0 := by
        intro b _
        simp only [beq_iff_eq, Prod.mk.injEq, ite_eq_right_iff, and_imp]
        intro h1 _
        exact absurd h1 hp
      rw [List.map_congr_left heq]
      simp [hp]

lemma pairedObs_length (r c : List (Option Val)) :
    (pairedObs r c).length = (List.zip r c).countP (fun p => p.1.isSome && p.2.isSome) := by
  unfold pairedObs
  induction List.zip r c with
  | nil => rfl
  | cons p l ih =>
    rcases p with ⟨x, y⟩
    rcases x with _ | x <;> rcases y with _ | y <;>
      simp [List.filterMap_cons, List.countP_cons, ih]

lemma pairedObs_count (r c : List (Option Val)) (a b : Val) :
    ctCount r c a b
      = (List.zip r c).countP (fun p => decide (p.1 = some a) && decide (p.2 = some b)) := by
  unfold ctCount pairedObs
  induction List.zip r c with
  | nil => rfl
  | cons p l ih =>
    rcases p with ⟨x, y⟩
    rcases x with _ | x <;> rcases y with _ | y
    · simp [List.filterMap_cons, List.countP_cons, ih]
    · simp [List.filterMap_cons, List.countP_cons, ih]
    · simp [List.filterMap_cons, List.countP_cons, ih]
    · simp only [List.filterMap_cons, List.count_cons, List.countP_cons, ih, beq_iff_eq,
        Prod.mk.injEq, Option.some.injEq, Bool.and_eq_true, decide_eq_true_eq]

/-- Claim C9: `pd.crosstab` builds the contingency table only from
rows where both selected variables are observed.  The grand total of
the table equals the number of rows with both values present (so it
can be strictly below the dataset's row count when values are
missing), and each cell (a, b) counts exactly the rows whose pair of
values is (observed a, observed b) — a row missing either value
contributes to no cell. -/
theorem crosstab_counts_complete_rows (r c : List (Option Val)) :
    ctGrand r c = (List.zip r c).countP (fun p => p.1.isSome && p.2.isSome) ∧
    ∀ a b : Val, ctCount r c a b
      = (List.zip r c).countP (fun p => decide (p.1 = some a) && decide (p.2 = some b)) := by
  refine ⟨?_, pairedObs_count r c⟩
  unfold ctGrand crosstab ctCount
  rw [List.map_map]
  have h1 : ∀ a ∈ ctRowLevels r c,
      (List.sum ∘ fun a => (ctColLevels r c).map (fun b => (pairedObs r c).count (a, b))) a
        = (pairedObs r c).countP (fun p => decide (p.1 = a)) := by
    intro a _
    exact sum_count_pair (pairedObs r c) a (ctColLevels r c) (List.nodup_dedup _)
      (fun p hp _ => List.mem_dedup.mpr (List.mem_map_of_mem Prod.snd hp))
  rw [List.map_congr_left h1,
    sum_countP_fst (pairedObs r c) (ctRowLevels r c) (List.nodup_dedup _)
      (fun p hp => List.mem_dedup.mpr (List.mem_map_of_mem Prod.fst hp))]
  exact pairedObs_length r c

/-- Witness for `crosstab_counts_complete_rows` at a concrete pair of
columns with a missing value: the grand total is 2, not 3. -/
theorem crosstab_counts_complete_rows_witness :
    ctGrand [some (Val.num 1), none, some (Val.num 2)]
        [some (Val.num 5), some (Val.num 6), some (Val.num 5)]
      = (List.zip [some (Val.num 1), none, some (Val.num 2)]
          [some (Val.num 5), some (Val.num 6), some (Val.num 5)]).countP
          (fun p => p.1.isSome && p.2.isSome) :=
  (crosstab_counts_complete_rows _ _).1

/-! ### Data-cleaning branch

A table is a header of column names plus row-major cells; numeric
cells are `Option ℚ` (missing = `none`).  The four cleaning
operations create one derived column computed row-wise:

* `Mean`: `df[cols].mean(axis=1)` — pandas `skipna=True`: mean of the
  present values of the row, NaN when none are present;
* `Sum`: `df[cols].sum(axis=1)` — pandas `skipna=True, min_count=0`:
  sum of the present values, 0 (not NaN) when none are present;
* `8 - Variable` (modelled with a general constant k): `k - df[col]`,
  NaN propagates;
* `Merge Two Columns`: `df[c1].combine_first(df[c2])`.

The script then assigns `st.session_state["df"][new_name] = series`,
which appends a new column (or overwrites an existing one of the same
name in place). -/

def rowPresent (cells : List (Option ℚ)) : List ℚ := cells.filterMap id

/-- Pandas row-wise mean with `skipna=True`. -/
def rowMean (cells : List (Option ℚ)) : Option ℚ :=
  if (rowPresent cells).length = 0 then none
  else some ((rowPresent cells).sum / (rowPresent cells).length)

/-- Pandas row-wise sum with `skipna=True` (default `min_count=0`):
defined even when every cell is missing. -/
def rowSum (cells : List (Option ℚ)) : Option ℚ :=
  some (rowPresent cells).sum

structure Table where
  header : List String
  rows : List (List (Option ℚ))

def WellFormed (t : Table) : Prop := ∀ r ∈ t.rows, r.length = t.header.length

inductive DerivedOp where
  | mean (cols : List String)
  | sum (cols : List String)
  | subtractFrom (k : ℚ) (col : String)
  | coalesce (c1 c2 : String)

structure DerivedColumnSpec where
  op : DerivedOp
  outName : String

/-- Position of the first occurrence of a column name in the header
(pandas column lookup). -/
def colIdx (header : List String) (c : String) : Option Nat :=
  match header with
  | [] => none
  | h :: hs => if h = c then some 0 else (colIdx hs c).map (fun i => i + 1)

/-- The cell of a row under a named column. -/
def cellAt (header : List String) (row : List (Option ℚ)) (c : String) : Option ℚ :=
  match colIdx header c with
  | some i => row.getD i none
  | none => none

/-- `df[names]` restricted to one row. -/
def selectCells (header names : List String) (row : List (Option ℚ)) : List (Option ℚ) :=
  names.map (cellAt header row)

/-- The derived value of one row. -/
def deriveCell (op : DerivedOp) (header : List String) (row : List (Option ℚ)) : Option ℚ :=
  match op with
  | DerivedOp.mean cols => rowMean (selectCells header cols row)
  | DerivedOp.sum cols => rowSum (selectCells header cols row)
  | DerivedOp.subtractFrom k c => (cellAt header row c).map (fun v => k - v)
  | DerivedOp.coalesce c1 c2 => (cellAt header row c1).orElse (fun _ => cellAt header row c2)

/-- `df[new_name] = series`: appends the derived column, or overwrites
in place when the name already exists.  The derived series is computed
from the table as it was before the assignment. -/
def applyTransform (t : Table) (s : DerivedColumnSpec) : Table :=
  if s.outName ∈ t.header then
    { header := t.header
      rows := t.rows.map (fun r =>
        r.set ((colIdx t.header s.outName).getD 0) (deriveCell s.op t.header r)) }
  else
    { header := t.header ++ [s.outName]
      rows := t.rows.map (fun r => r ++ [deriveCell s.op t.header r]) }

/-- Column of a table under a name. -/
def getColByName (t : Table) (c : String) : List (Option ℚ) :=
  t.rows.map (fun r => cellAt t.header r c)

lemma colIdx_append_of_mem {header : List String} {c : String} (l : List String)
    (h : c ∈ header) : colIdx (header ++ l) c = colIdx header c := by
  induction header with
  | nil => cases h
  | cons x hs ih =>
    rcases eq_or_ne x c with rfl | hne
    · simp [colIdx]
    · have hc : c ∈ hs := by
        rcases List.mem_cons.mp h with rfl | hmem
        · exact absurd rfl hne
        · exact hmem
      simp only [List.cons_append, colIdx, hne, if_false, ite_false]
      rw [show hs.append l = hs ++ l from rfl, ih hc]

lemma colIdx_lt_length {header : List String} {c : String} {i : Nat}
    (h : colIdx header c = some i) : i < header.length := by
  induction header generalizing i with
  | nil => simp [colIdx] at h
  | cons x hs ih =>
    simp only [colIdx] at h
    by_cases hx : x = c
    · rw [if_pos hx] at h
      injection h with h
      simp [← h]
    · rw [if_neg hx] at h
      rcases Option.map_eq_some'.mp h with ⟨j, hj, rfl⟩
      have := ih hj
      simp only [List.length_cons]
      omega

/-- Claim C5: applying a derived-column spec whose output name is
fresh (differs from every existing column) preserves the row count
and leaves every pre-existing column unchanged, in values and row
alignment: the assignment appends exactly one new column.  (The
hypothesis that the spec is applied to a well-formed table matches
the rectangular frames the UI produces; the sources of the spec are
chosen from the existing columns by the UI.) -/
theorem applyTransform_preserves_existing (t : Table) (s : DerivedColumnSpec)
    (hfresh : s.outName ∉ t.header) (hwf : WellFormed t) :
    (applyTransform t s).rows.length = t.rows.length ∧
    ∀ c ∈ t.header, getColByName (applyTransform t s) c = getColByName t c := by
  unfold applyTransform
  rw [if_neg hfresh]
  constructor
  · simp
  · intro c hc
    unfold getColByName
    simp only [List.map_map]
    apply List.map_congr_left
    intro r hr
    simp only [Function.comp_apply]
    unfold cellAt
    rw [colIdx_append_of_mem _ hc]
    cases hidx : colIdx t.header c with
    | none => rfl
    | some i =>
      have hi : i < r.length := by
        rw [hwf r hr]
        exact colIdx_lt_length hidx
      exact List.getD_append _ _ _ _ hi

/-- Witness for `applyTransform_preserves_existing`: appending a mean
column named m to a one-column table keeps the single row. -/
theorem applyTransform_preserves_existing_witness :
    (applyTransform ⟨["g"], [[some 1]]⟩ ⟨DerivedOp.mean ["g"], "m"⟩).rows.length
      = ([[some 1]] : List (List (Option ℚ))).length :=
  (applyTransform_preserves_existing ⟨["g"], [[some 1]]⟩ ⟨DerivedOp.mean ["g"], "m"⟩
    (by simp)
    (by
      intro r hr
      simp only [List.mem_singleton] at hr
      subst hr
      rfl)).1

/-- Claim C4 (counterexample): a `Sum` derived column on a row whose
selected cells are all missing evaluates to 0, not to NaN: pandas
`sum(axis=1)` with its defaults (`skipna=True`, `min_count=0`)
returns 0.0 for an all-missing row, while the claim requires an
undefined value exactly there. -/
theorem sum_all_missing_is_zero :
    deriveCell (DerivedOp.sum ["a", "b"]) ["a", "b"] [none, none] = some 0 ∧
    deriveCell (DerivedOp.sum ["a", "b"]) ["a", "b"] [none, none] ≠ none := by
  constructor
  · simp [deriveCell, rowSum, rowPresent, selectCells, cellAt, colIdx]
  · simp [deriveCell, rowSum]

/-- Claim C4 (amended): for a `Mean` derived column the value at a row
is missing iff every selected cell of that row is missing, and when
present it is the mean of the present cells; for a `Sum` derived
column the value is never missing and is the sum of the present
cells — in particular 0, not NaN, when all selected cells are
missing. -/
theorem derive_mean_sum_missing_semantics (header names : List String)
    (row : List (Option ℚ)) :
    (deriveCell (DerivedOp.mean names) header row = none ↔
      ∀ x ∈ selectCells header names row, x = none) ∧
    deriveCell (DerivedOp.sum names) header row ≠ none ∧
    ((∀ x ∈ selectCells header names row, x = none) →
      deriveCell (DerivedOp.sum names) header row = some 0) ∧
    (∀ q : ℚ, deriveCell (DerivedOp.mean names) header row = some q →
      q = (rowPresent (selectCells header names row)).sum
            / (rowPresent (selectCells header names row)).length) := by
  refine ⟨?_, ?_, ?_, ?_⟩
  · simp only [deriveCell]
    unfold rowMean
    constructor
    · intro h
      by_cases hl : (rowPresent (selectCells header names row)).length = 0
      · intro x hx
        have hnil : rowPresent (selectCells header names row) = [] :=
          List.length_eq_zero.mp hl
        exact List.filterMap_eq_nil_iff.mp hnil x hx
      · rw [if_neg hl] at h
        cases h
    · intro hall
      have hnil : rowPresent (selectCells header names row) = [] :=
        List.filterMap_eq_nil_iff.mpr (fun a ha => hall a ha)
      rw [if_pos (by rw [hnil]; rfl)]
  · simp [deriveCell, rowSum]
  · intro hall
    have hnil : rowPresent (selectCells header names row) = [] :=
      List.filterMap_eq_nil_iff.mpr (fun a ha => hall a ha)
    simp [deriveCell, rowSum, hnil]
  · intro q h
    simp only [deriveCell] at h
    unfold rowMean at h
    by_cases hl : (rowPresent (selectCells header names row)).length = 0
    · rw [if_pos hl] at h
      cases h
    · rw [if_neg hl] at h
      exact (Option.some.inj h).symm

/-- Witness for `derive_mean_sum_missing_semantics` at a concrete
one-cell row. -/
theorem derive_mean_sum_missing_semantics_witness :
    deriveCell (DerivedOp.sum ["a"]) ["a"] [some 2] ≠ none :=
  (derive_mean_sum_missing_semantics ["a"] ["a"] [some 2]).2.1

/-! ### Level relabeling in the ANOVA branch

The script offers renaming of the factor levels only when
`df[independent_var].nunique() <= 2` (pandas `nunique` counts the
distinct non-missing values).  The UI builds a mapping over all
unique levels and applies `df[independent_var].replace(mapping)`:
`Series.replace` substitutes the values present in the mapping and
leaves all other values unchanged — there is no completeness check
and no error path. -/

/-- `Series.replace(mapping)`: mapped values are substituted, values
absent from the mapping (and missing values) are untouched. -/
def replaceVals (m : List (Val × Val)) (col : List (Option Val)) : List (Option Val) :=
  col.map (Option.map (fun v => (List.lookup v m).getD v))

/-- pandas `Series.nunique()`: number of distinct non-missing values. -/
def nunique (col : List (Option Val)) : Nat := (col.filterMap id).dedup.length

/-- The factor column as the ANOVA branch prepares it: relabeled via
`replace` when it has at most two distinct observed levels, used
as-is otherwise. -/
def prepFactor (m : List (Val × Val)) (col : List (Option Val)) : List (Option Val) :=
  if nunique col ≤ 2 then replaceVals m col else col

/-- Claim C10: when the factor has three or more distinct observed
levels, no relabeling mapping is applied: the factor's values enter
the model and the group statistics as-is. -/
theorem prepFactor_three_levels_id (m : List (Val × Val)) (col : List (Option Val))
    (h : 2 < nunique col) : prepFactor m col = col := by
  unfold prepFactor
  rw [if_neg (by omega)]

/-- Witness for `prepFactor_three_levels_id` on a three-level factor. -/
theorem prepFactor_three_levels_id_witness :
    prepFactor [(Val.num 1, Val.str ("one"))]
        [some (Val.num 1), some (Val.num 2), some (Val.num 3)]
      = [some (Val.num 1), some (Val.num 2), some (Val.num 3)] :=
  prepFactor_three_levels_id _ _ (by decide)

/-- Claim C7 (counterexample): a relabeling mapping covering only one
of the two observed levels is applied without any error: the mapped
level is renamed and the unmapped level is kept, i.e. the code
proceeds with a partial relabeling instead of failing. -/
theorem replace_partial_mapping_proceeds :
    prepFactor [(Val.num 1, Val.str ("one"))] [some (Val.num 1), some (Val.num 2)]
      = [some (Val.str ("one")), some (Val.num 2)] ∧
    List.lookup (Val.num 2) [(Val.num 1, Val.str ("one"))] = none := by
  constructor
  · decide
  · decide

/-- Claim C7 (amended): `Series.replace` performs no coverage check:
when the mapping misses an observed level, relabeling still proceeds
(the column keeps its length) and the unmapped level survives
unchanged in the output; no failure is raised.  (In the app the UI
constructs the mapping over every unique level, so an incomplete
mapping cannot even arise.) -/
theorem replace_incomplete_mapping_keeps_unmapped (m : List (Val × Val))
    (col : List (Option Val)) (v : Val) (hv : some v ∈ col)
    (hm : List.lookup v m = none) :
    (replaceVals m col).length = col.length ∧ some v ∈ replaceVals m col := by
  constructor
  · simp [replaceVals]
  · refine List.mem_map.mpr ⟨some v, hv, ?_⟩
    simp [hm]

/-- Witness for `replace_incomplete_mapping_keeps_unmapped`: the
unmapped level 2 survives the partial relabeling. -/
theorem replace_incomplete_mapping_keeps_unmapped_witness :
    some (Val.num 2) ∈ replaceVals [(Val.num 1, Val.str ("one"))]
      [some (Val.num 1), some (Val.num 2)] :=
  (replace_incomplete_mapping_keeps_unmapped [(Val.num 1, Val.str ("one"))]
    [some (Val.num 1), some (Val.num 2)] (Val.num 2) (by simp) (by decide)).2

/-! ### Post-hoc pairwise contrasts (spec section 4.5) -/

/-- Modelled from the spec: the source file contains no post-hoc
(Tukey HSD) implementation — only the spec describes `PostHocEngine`.
Per the spec, the result contains every unordered pair of distinct
group levels exactly once, enumerated in a stable order. -/
def tukeyPairs : List Val → List (Val × Val)
  | [] => []
  | a :: rest => (rest.map (fun b => (a, b))) ++ tukeyPairs rest

lemma mem_tukeyPairs {l : List Val} {p : Val × Val} (h : p ∈ tukeyPairs l) :
    p.1 ∈ l ∧ p.2 ∈ l := by
  induction l with
  | nil => cases h
  | cons a rest ih =>
    rw [tukeyPairs] at h
    rcases List.mem_append.mp h with h1 | h2
    · rcases List.mem_map.mp h1 with ⟨b, hb, rfl⟩
      exact ⟨List.mem_cons_self _ _, List.mem_cons_of_mem _ hb⟩
    · rcases ih h2 with ⟨h3, h4⟩
      exact ⟨List.mem_cons_of_mem _ h3, List.mem_cons_of_mem _ h4⟩

lemma tukeyPairs_length (l : List Val) : (tukeyPairs l).length = l.length.choose 2 := by
  induction l with
  | nil => rfl
  | cons a rest ih =>
    simp only [tukeyPairs, List.length_append, List.length_map, ih, List.length_cons,
      Nat.choose_succ_succ, Nat.choose_one_right]

lemma countP_decide_eq_count (b : Val) (l : List Val) :
    l.countP (fun c => decide (c = b)) = l.count b := by
  induction l with
  | nil => rfl
  | cons x rest ih =>
    simp [List.countP_cons, List.count_cons, ih, beq_iff_eq]

lemma tukeyPairs_no_self {l : List Val} (hnd : l.Nodup) :
    ∀ p ∈ tukeyPairs l, p.1 ≠ p.2 := by
  induction l with
  | nil => intro p hp; cases hp
  | cons x rest ih =>
    intro p hp
    rw [tukeyPairs] at hp
    rcases List.mem_append.mp hp with h1 | h2
    · rcases List.mem_map.mp h1 with ⟨b, hb, rfl⟩
      intro h
      have h2 : x = b := h
      exact (List.nodup_cons.mp hnd).1 (h2 ▸ hb)
    · exact ih (List.Nodup.of_cons hnd) p h2

lemma tukeyPairs_countP_pair {l : List Val} (hnd : l.Nodup) {a b : Val}
    (ha : a ∈ l) (hb : b ∈ l) (hab : a ≠ b) :
    (tukeyPairs l).countP (fun p => decide (p = (a, b)) || decide (p = (b, a))) = 1 := by
  induction l with
  | nil => cases ha
  | cons x rest ih =>
    have hndr : rest.Nodup := List.Nodup.of_cons hnd
    have hxr : x ∉ rest := (List.nodup_cons.mp hnd).1
    rw [tukeyPairs, List.countP_append, List.countP_map]
    rcases List.mem_cons.mp ha with rfl | har
    · rcases List.mem_cons.mp hb with rfl | hbr
      · exact absurd rfl hab
      · have hmap : rest.countP
            ((fun p => decide (p = (a, b)) || decide (p = (b, a))) ∘ fun c => (a, c)) = 1 := by
          have heq : ∀ c ∈ rest,
              (((fun p => decide (p = (a, b)) || decide (p = (b, a))) ∘ fun c => (a, c)) c
                  = true
                ↔ (decide (c = b)) = true) := by
            intro c _
            simp [hab]
          rw [List.countP_congr heq, countP_decide_eq_count,
            List.count_eq_one_of_mem hndr hbr]
        have hrec : (tukeyPairs rest).countP
            (fun p => decide (p = (a, b)) || decide (p = (b, a))) = 0 := by
          apply List.countP_eq_zero.mpr
          intro p hp
          have hmem := mem_tukeyPairs hp
          simp only [Bool.or_eq_true, decide_eq_true_eq]
          rintro (rfl | rfl)
          · exact hxr hmem.1
          · exact hxr hmem.2
        rw [hmap, hrec]
    · rcases List.mem_cons.mp hb with rfl | hbr
      · have hmap : rest.countP
            ((fun p => decide (p = (a, b)) || decide (p = (b, a))) ∘ fun c => (b, c)) = 1 := by
          have heq : ∀ c ∈ rest,
              (((fun p => decide (p = (a, b)) || decide (p = (b, a))) ∘ fun c => (b, c)) c
                  = true
                ↔ (decide (c = a)) = true) := by
            intro c _
            simp [hab, Ne.symm hab]
          rw [List.countP_congr heq, countP_decide_eq_count,
            List.count_eq_one_of_mem hndr har]
        have hrec : (tukeyPairs rest).countP
            (fun p => decide (p = (a, b)) || decide (p = (b, a))) = 0 := by
          apply List.countP_eq_zero.mpr
          intro p hp
          have hmem := mem_tukeyPairs hp
          simp only [Bool.or_eq_true, decide_eq_true_eq]
          rintro (rfl | rfl)
          · exact hxr hmem.2
          · exact hxr hmem.1
        rw [hmap, hrec]
      · have hxa : x ≠ a := fun h => hxr (h ▸ har)
        have hxb : x ≠ b := fun h => hxr (h ▸ hbr)
        have hmap : rest.countP
            ((fun p => decide (p = (a, b)) || decide (p = (b, a))) ∘ fun c => (x, c)) = 0 := by
          apply List.countP_eq_zero.mpr
          intro c _
          simp only [Function.comp_apply, Bool.or_eq_true, decide_eq_true_eq, Prod.mk.injEq]
          rintro (⟨h1, _⟩ | ⟨h1, _⟩)
          · exact hxa h1
          · exact hxb h1
        rw [hmap, ih hndr har hbr]

/-- Claim C8 (spec-modelled): for k distinct group levels the Tukey
pair enumeration contains exactly k*(k-1)/2 pairs, none of them a
self pair, and each unordered pair of distinct levels appears exactly
once. -/
theorem tukeyPairs_pair_structure (levels : List Val) (hnd : levels.Nodup) :
    (tukeyPairs levels).length = levels.length * (levels.length - 1) / 2 ∧
    (∀ p ∈ tukeyPairs levels, p.1 ≠ p.2) ∧
    (∀ a b : Val, a ∈ levels → b ∈ levels → a ≠ b →
      (tukeyPairs levels).countP
        (fun p => decide (p = (a, b)) || decide (p = (b, a))) = 1) := by
  refine ⟨?_, tukeyPairs_no_self hnd, ?_⟩
  · rw [tukeyPairs_length, Nat.choose_two_right]
  · intro a b ha hb hab
    exact tukeyPairs_countP_pair hnd ha hb hab

/-- Witness for `tukeyPairs_pair_structure` on three groups:
3 * 2 / 2 = 3 pairs. -/
theorem tukeyPairs_pair_structure_witness :
    (tukeyPairs [Val.num 1, Val.num 2, Val.num 3]).length
      = ([Val.num 1, Val.num 2, Val.num 3] : List Val).length
        * (([Val.num 1, Val.num 2, Val.num 3] : List Val).length - 1) / 2 :=
  (tukeyPairs_pair_structure [Val.num 1, Val.num 2, Val.num 3] (by decide)).1

/-! ### ANOVA branch: `ols(formula, data).fit()` and Type-II ANOVA

`statsmodels`' `OLS.fit()` with its default `method='pinv'` computes
`params = pinv(design) @ y` with the Moore-Penrose pseudoinverse (via
SVD).  It performs no rank check and raises no error on a singular
design: rank-deficient designs yield the minimum-norm least-squares
coefficients.  In exact arithmetic the Moore-Penrose pseudoinverse is
unique, so the embedding computes it by Greville's column-recursive
method, which is exact over ℚ.

`sm.stats.anova_lm(model, typ=2)` computes, for each term of an
additive model, the Type-II sum of squares
`SSE(model without the term) - SSE(full model)`, and the residual row
`SSE(full model)`. -/

/-- Linear combination `Σ cs_i • rows_i` of vectors of length m. -/
def lincomb (m : Nat) (cs : List ℚ) (rows : List (List ℚ)) : List ℚ :=
  (List.zipWith smul cs rows).foldr vadd (List.replicate m 0)

/-- One step of Greville's recursion: extend the pseudoinverse `pv` of
the matrix with columns `cols` by one more column `a`. -/
def grevilleStep (cols : List (List ℚ)) (pv : List (List ℚ)) (a : List ℚ) :
    List (List ℚ) × List (List ℚ) :=
  let d := matVec pv a
  let c := vsub a (lincomb a.length d cols)
  let b :=
    if c = List.replicate a.length 0 then
      smul (1 / (1 + dot d d)) (lincomb a.length d pv)
    else
      smul (1 / dot c c) c
  (cols ++ [a], (List.zipWith (fun row di => vsub row (smul di b)) pv d) ++ [b])

/-- Moore-Penrose pseudoinverse of a row-major matrix (`numpy.linalg.pinv`
in exact arithmetic), one Greville step per column. -/
def pinv (X : List (List ℚ)) : List (List ℚ) :=
  ((columnsOf X).foldl (fun s a => grevilleStep s.1 s.2 a) ([], [])).2

/-- `OLS(y, X).fit(method='pinv').params`: coefficients `pinv(X) @ y`. -/
def olsBeta (X : List (List ℚ)) (y : List ℚ) : List ℚ := matVec (pinv X) y

/-- The failure kind the spec calls `SingularDesignError`.  The
statsmodels pinv-based fit has no code path that raises it — the
`Except` layer records where such a failure would live. -/
inductive FitError where
  | singularDesign
  deriving DecidableEq

/-- `ols(formula, data).fit()`: always succeeds, returning the
pseudoinverse-based coefficients; there is no rank check. -/
def olsFit (X : List (List ℚ)) (y : List ℚ) : Except FitError (List ℚ) :=
  Except.ok (olsBeta X y)

def residuals (X : List (List ℚ)) (y : List ℚ) : List ℚ :=
  vsub y (matVec X (olsBeta X y))

/-- Residual sum of squares of the fitted model. -/
def sse (X : List (List ℚ)) (y : List ℚ) : ℚ := sumSq (residuals X y)

def meanQ (xs : List ℚ) : ℚ := xs.sum / xs.length

/-- Total corrected sum of squares `Σ (y_i - mean y)^2`. -/
def ssTotal (y : List ℚ) : ℚ := sumSq (y.map (fun v => v - meanQ y))

/-- Intercept-only design: a column of ones. -/
def onesMat (n : Nat) : List (List ℚ) := List.replicate n [1]

/-- `anova_lm(model, typ=2)` for an additive model: per-term Type-II
sums of squares (each against the design with that term removed) and
the residual sum of squares. -/
def typeIITable (y : List ℚ) (Xfull : List (List ℚ)) (reduced : List (List (List ℚ))) :
    List ℚ × ℚ :=
  (reduced.map (fun Xr => sse Xr y - sse Xfull y), sse Xfull y)

/-- A design matrix is rank deficient when some nontrivial linear
combination of its columns vanishes. -/
def rankDeficient (X : List (List ℚ)) : Prop :=
  ∃ c : List ℚ, c.length = (columnsOf X).length ∧
    c ≠ List.replicate c.length 0 ∧ matVec X c = List.replicate X.length 0

lemma grevilleStep_ones4 : grevilleStep [] [] [1,1,1,1] = ([[1,1,1,1]], [[1/4,1/4,1/4,1/4]]) := by
  norm_num [grevilleStep, matVec, dot, vsub, vadd, smul, lincomb, List.zipWith, List.replicate,
    List.foldr]

lemma grevilleStep_x4 : grevilleStep [[1,1,1,1]] [[1/4,1/4,1/4,1/4]] [1,2,3,4]
    = ([[1,1,1,1],[1,2,3,4]], [[1, 1/2, 0, -1/2], [-3/10, -1/10, 1/10, 3/10]]) := by
  norm_num [grevilleStep, matVec, dot, vsub, vadd, smul, lincomb, List.zipWith, List.replicate,
    List.foldr]

lemma grevilleStep_dummy4 : grevilleStep [[1,1,1,1]] [[1/4,1/4,1/4,1/4]] [0,0,1,1]
    = ([[1,1,1,1],[0,0,1,1]], [[1/2,1/2,0,0], [-1/2,-1/2,1/2,1/2]]) := by
  norm_num [grevilleStep, matVec, dot, vsub, vadd, smul, lincomb, List.zipWith, List.replicate,
    List.foldr]

lemma grevilleStep_x4' : grevilleStep [[1,1,1,1],[0,0,1,1]]
      [[1/2,1/2,0,0], [-(1/2),-(1/2),1/2,1/2]] [1,2,3,4]
    = ([[1,1,1,1],[0,0,1,1],[1,2,3,4]],
       [[5/4,-1/4,3/4,-3/4], [1/2,-3/2,3/2,-1/2], [-1/2,1/2,-1/2,1/2]]) := by
  norm_num [grevilleStep, matVec, dot, vsub, vadd, smul, lincomb, List.zipWith, List.replicate,
    List.foldr]

lemma grevilleStep_ones3 : grevilleStep [] [] [1,1,1] = ([[1,1,1]], [[1/3,1/3,1/3]]) := by
  norm_num [grevilleStep, matVec, dot, vsub, vadd, smul, lincomb, List.zipWith, List.replicate,
    List.foldr]

lemma grevilleStep_z3 : grevilleStep [[1,1,1]] [[1/3,1/3,1/3]] [1,2,3]
    = ([[1,1,1],[1,2,3]], [[4/3,1/3,-2/3], [-1/2,0,1/2]]) := by
  norm_num [grevilleStep, matVec, dot, vsub, vadd, smul, lincomb, List.zipWith, List.replicate,
    List.foldr]

lemma grevilleStep_2z3 : grevilleStep [[1,1,1],[1,2,3]] [[4/3,1/3,-(2/3)], [-(1/2),0,1/2]] [2,4,6]
    = ([[1,1,1],[1,2,3],[2,4,6]],
       [[4/3,1/3,-2/3], [-1/10,0,1/10], [-1/5,0,1/5]]) := by
  norm_num [grevilleStep, matVec, dot, vsub, vadd, smul, lincomb, List.zipWith, List.replicate,
    List.foldr]

lemma pinv_interceptX : pinv [[1,1],[1,2],[1,3],[1,4]]
    = [[1, 1/2, 0, -1/2], [-3/10, -1/10, 1/10, 3/10]] := by
  norm_num [pinv, columnsOf, getColumn, List.range_succ, List.foldl_cons, List.foldl_nil,
    grevilleStep_ones4, grevilleStep_x4, List.getD]

lemma pinv_interceptDummy : pinv [[1,0],[1,0],[1,1],[1,1]]
    = [[1/2,1/2,0,0], [-1/2,-1/2,1/2,1/2]] := by
  norm_num [pinv, columnsOf, getColumn, List.range_succ, List.foldl_cons, List.foldl_nil,
    grevilleStep_ones4, grevilleStep_dummy4, List.getD]

lemma pinv_fullDesign : pinv [[1,0,1],[1,0,2],[1,1,3],[1,1,4]]
    = [[5/4,-1/4,3/4,-3/4], [1/2,-3/2,3/2,-1/2], [-1/2,1/2,-1/2,1/2]] := by
  norm_num [pinv, columnsOf, getColumn, List.range_succ, List.foldl_cons, List.foldl_nil,
    grevilleStep_ones4, grevilleStep_dummy4, grevilleStep_x4', List.getD]

lemma pinv_collinear : pinv [[1,1,2],[1,2,4],[1,3,6]]
    = [[4/3,1/3,-2/3], [-1/10,0,1/10], [-1/5,0,1/5]] := by
  norm_num [pinv, columnsOf, getColumn, List.range_succ, List.foldl_cons, List.foldl_nil,
    grevilleStep_ones3, grevilleStep_z3, grevilleStep_2z3, List.getD]

lemma sse_interceptX : sse [[1,1],[1,2],[1,3],[1,4]] [1,2,3,5] = 3/10 := by
  rw [sse, residuals, olsBeta, pinv_interceptX]
  norm_num [matVec, dot, vsub, sumSq, List.zipWith]

lemma sse_interceptDummy : sse [[1,0],[1,0],[1,1],[1,1]] [1,2,3,5] = 5/2 := by
  rw [sse, residuals, olsBeta, pinv_interceptDummy]
  norm_num [matVec, dot, vsub, sumSq, List.zipWith]

lemma sse_fullDesign : sse [[1,0,1],[1,0,2],[1,1,3],[1,1,4]] [1,2,3,5] = 1/4 := by
  rw [sse, residuals, olsBeta, pinv_fullDesign]
  norm_num [matVec, dot, vsub, sumSq, List.zipWith]

lemma ssTotal_scenario : ssTotal [1,2,3,5] = 35/4 := by
  norm_num [ssTotal, meanQ, sumSq]

/-- Claim C2 (counterexample): on the rank-deficient design with
intercept and two perfectly collinear covariates z and 2z, the fit
does not fail: statsmodels' pinv-based OLS returns the minimum-norm
least-squares coefficients [0, 1/5, 2/5]. -/
theorem ols_collinear_returns_coefficients :
    rankDeficient [[1,1,2],[1,2,4],[1,3,6]] ∧
    olsFit [[1,1,2],[1,2,4],[1,3,6]] [1,2,3] = Except.ok [0, 1/5, 2/5] := by
  constructor
  · refine ⟨[0, 2, -1], ?_, ?_, ?_⟩
    · norm_num [columnsOf, List.range_succ]
    · intro h
      simp [List.replicate] at h
    · norm_num [matVec, dot, List.zipWith, List.replicate]
  · rw [olsFit, olsBeta, pinv_collinear]
    norm_num [matVec, dot, List.zipWith]

/-- Claim C3 (counterexample): for the ANCOVA with one two-level
factor and one covariate on y = (1,2,3,5), factor = (a,a,b,b),
x = (1,2,3,4), the Type-II sums of squares are 1/20 (factor) and 9/4
(covariate) with residual 1/4, summing to 51/20 = 2.55, while the total
corrected sum of squares is 35/4 = 8.75: the identity misses by a
relative error of about 0.7, far beyond any 1e-6 tolerance. -/
theorem typeII_identity_fails_with_covariate :
    (typeIITable [1,2,3,5] [[1,0,1],[1,0,2],[1,1,3],[1,1,4]]
        [[[1,1],[1,2],[1,3],[1,4]], [[1,0],[1,0],[1,1],[1,1]]]).1.sum
      + (typeIITable [1,2,3,5] [[1,0,1],[1,0,2],[1,1,3],[1,1,4]]
          [[[1,1],[1,2],[1,3],[1,4]], [[1,0],[1,0],[1,1],[1,1]]]).2 = 51/20 ∧
    ssTotal [1,2,3,5] = 35/4 ∧
    ¬((35:ℚ)/4 - 51/20 ≤ (35/4) * (1/1000000)) := by
  refine ⟨?_, ssTotal_scenario, by norm_num⟩
  simp only [typeIITable, sse_interceptX, sse_interceptDummy, sse_fullDesign, List.map_cons,
    List.map_nil, List.sum_cons, List.sum_nil]
  norm_num

lemma grevilleStep_snd_length (cols pv : List (List ℚ)) (a : List ℚ) :
    ((grevilleStep cols pv a).2).length = pv.length + 1 := by
  simp [grevilleStep, matVec]

lemma pinv_foldl_length (cs : List (List ℚ)) (s : List (List ℚ) × List (List ℚ)) :
    ((cs.foldl (fun s a => grevilleStep s.1 s.2 a) s).2).length = s.2.length + cs.length := by
  induction cs generalizing s with
  | nil => simp
  | cons a cs ih =>
    rw [List.foldl_cons, ih, grevilleStep_snd_length]
    simp only [List.length_cons]
    omega

lemma pinv_length (X : List (List ℚ)) : (pinv X).length = (columnsOf X).length := by
  unfold pinv
  rw [pinv_foldl_length]
  simp

/-- Claim C2 (amended): the fit never fails: for every design matrix
and response, `ols(...).fit()` returns a coefficient vector with one
entry per design column — there is no rank check and no
`SingularDesignError`; a rank-deficient design yields the
pseudoinverse (minimum-norm) solution. -/
theorem olsFit_never_singular (X : List (List ℚ)) (y : List ℚ) :
    ∃ β : List ℚ, olsFit X y = Except.ok β ∧ β.length = (columnsOf X).length := by
  refine ⟨olsBeta X y, rfl, ?_⟩
  unfold olsBeta matVec
  rw [List.length_map, pinv_length]

lemma columnsOf_onesMat (m : Nat) :
    columnsOf (onesMat (m+1)) = [List.replicate (m+1) 1] := by
  rw [onesMat, List.replicate_succ]
  simp only [columnsOf, List.length_cons, List.length_nil, Nat.zero_add, List.range_succ,
    List.range_zero, List.nil_append, List.map_cons, List.map_nil, getColumn,
    List.map_replicate, List.getD_cons_zero]
  rw [List.replicate_succ]

lemma dot_replicate (c : ℚ) (y : List ℚ) : dot (List.replicate y.length c) y = c * y.sum := by
  induction y with
  | nil => simp [dot]
  | cons h t ih =>
    simp only [List.length_cons, List.replicate_succ, dot, List.zipWith_cons_cons,
      List.sum_cons] at ih ⊢
    rw [ih]
    ring

lemma vsub_self_replicate (y : List ℚ) (c : ℚ) :
    vsub y (List.replicate y.length c) = y.map (fun v => v - c) := by
  induction y with
  | nil => rfl
  | cons h t ih =>
    simp only [List.length_cons, List.replicate_succ, vsub, List.zipWith_cons_cons,
      List.map_cons] at ih ⊢
    rw [ih]

lemma pinv_onesMat (m : Nat) :
    pinv (onesMat (m+1)) = [List.replicate (m+1) (1 / ((m:ℚ)+1))] := by
  rw [pinv, columnsOf_onesMat, List.foldl_cons, List.foldl_nil]
  show (grevilleStep [] [] (List.replicate (m+1) 1)).2 = _
  have hlen : (List.replicate (m+1) (1:ℚ)).length = m+1 := List.length_replicate _ _
  have hc : vsub (List.replicate (m+1) (1:ℚ)) (List.replicate (m+1) (0:ℚ))
      = List.replicate (m+1) (1:ℚ) := by
    have h2 := vsub_self_replicate (List.replicate (m+1) (1:ℚ)) 0
    rw [hlen] at h2
    rw [h2]
    simp
  have hcne : List.replicate (m+1) (1:ℚ) ≠ List.replicate (m+1) (0:ℚ) := by
    simp [List.replicate_succ]
  have hdot : dot (List.replicate (m+1) (1:ℚ)) (List.replicate (m+1) (1:ℚ)) = (m:ℚ)+1 := by
    have h2 := dot_replicate 1 (List.replicate (m+1) (1:ℚ))
    rw [hlen] at h2
    rw [h2, List.sum_replicate]
    simp [nsmul_eq_mul]
  rw [grevilleStep]
  simp only [matVec, List.map_nil, hlen, lincomb, List.zipWith_nil_left, List.foldr_nil, hc,
    List.zipWith_nil, List.nil_append]
  rw [if_neg hcne, hdot]
  simp [smul, List.map_replicate]

lemma sse_onesMat (y : List ℚ) : sse (onesMat y.length) y = ssTotal y := by
  cases y with
  | nil => rfl
  | cons h t =>
    rw [sse, residuals, olsBeta]
    rw [show (h :: t).length = t.length + 1 from rfl, pinv_onesMat]
    have hbeta : matVec [List.replicate (t.length + 1) (1 / ((t.length:ℚ)+1))] (h :: t)
        = [meanQ (h :: t)] := by
      rw [matVec, List.map_cons, List.map_nil]
      rw [show (List.replicate (t.length + 1) (1 / ((t.length:ℚ)+1)))
            = List.replicate (h :: t).length (1 / ((t.length:ℚ)+1)) from rfl]
      rw [dot_replicate]
      rw [meanQ, one_div_mul_eq_div]
      norm_num
    rw [hbeta]
    have hfit : matVec (onesMat (t.length + 1)) [meanQ (h :: t)]
        = List.replicate (t.length + 1) (meanQ (h :: t)) := by
      rw [onesMat, matVec, List.map_replicate]
      simp [dot]
    rw [hfit]
    rw [show (t.length + 1) = (h :: t).length from rfl, vsub_self_replicate]
    rw [ssTotal]

/-- Claim C3 (amended): the ANOVA identity `SS_total = Σ SS_term +
SS_residual` holds (exactly) for the single-factor model, where the
only Type-II reduced design is the intercept-only column of ones; for
models with a covariate the Type-II decomposition need not satisfy
the identity. -/
theorem typeII_identity_single_factor (y : List ℚ) (Xfull : List (List ℚ)) :
    (typeIITable y Xfull [onesMat y.length]).1.sum
        + (typeIITable y Xfull [onesMat y.length]).2
      = ssTotal y := by
  simp only [typeIITable, List.map_cons, List.map_nil, List.sum_cons, List.sum_nil,
    sse_onesMat]
  ring

end AnovaTool
